import Mathlib

/-!
Verification of the lconfig library (BareRose/lconfig).

The repository ships two variants of the same single-file C library:
* `src/lconfig.h` — config values of three categories (int, double, string),
  with accessors, clamping, defaults, and file read/write;
* `src/unnamed/part_000` — the int/string variant of the same design, whose
  accessor, reader and writer code is textually identical apart from the
  missing double category.

Namespace `K` embeds the int/string variant (`src/unnamed/part_000`) in full,
including the `fgets`-based line reader and the template-driven writer.
Namespace `L` embeds the accessor layer of `src/lconfig.h`, including the
double category; doubles are modelled as an inductive carrying exact rationals
together with NaN and the two infinities, with the C `<` comparison semantics
(any comparison involving NaN is false).
-/

namespace K

/-- Embeds `struct lcfg_int` of src/unnamed/part_000.  The C field `def` is
named `dflt` (`def` is a Lean keyword); `name` is the stored name, which by
construction of the template macros already includes the trailing space
separator (`NAME " "`). -/
structure lcfg_int where
  name : List Char
  min : Int
  max : Int
  dflt : Int
  cur : Int
deriving DecidableEq, Repr

/-- Embeds `struct lcfg_str` of src/unnamed/part_000; `len` is the maximum
length not counting the terminator. -/
structure lcfg_str where
  name : List Char
  len : Nat
  dflt : List Char
  cur : List Char
deriving DecidableEq, Repr

/-- Embeds `lcfgIntSet`: clamp `val` into `[min, max]` and store it. -/
def lcfgIntSet (cfg : lcfg_int) (val : Int) : lcfg_int :=
  let v1 := if val < cfg.min then cfg.min else val
  let v2 := if v1 > cfg.max then cfg.max else v1
  { cfg with cur := v2 }

/-- Embeds `strcspn(val, "\n")`: the length of the longest initial segment of
`val` containing no newline. -/
def strcspnNl (val : List Char) : Nat :=
  (val.takeWhile (fun c => c != '\n')).length

/-- Embeds `lcfgStrSet`: truncate `val` at the first newline, clamp the length
to `len`, and store the copied characters. -/
def lcfgStrSet (cfg : lcfg_str) (val : List Char) : lcfg_str :=
  let n := strcspnNl val
  let n := if n > cfg.len then cfg.len else n
  { cfg with cur := val.take n }

/-- Characters accepted by C `isspace` in the default locale, as consumed by
`atoi` before the number. -/
def cIsSpace (c : Char) : Bool :=
  c == ' ' || c == '\t' || c == '\n' || c == Char.ofNat 11 || c == Char.ofNat 12 || c == '\r'

/-- Value of a string of decimal digit characters (most significant first). -/
def digitsToNat (l : List Char) : Nat :=
  l.foldl (fun a c => 10 * a + (c.toNat - 48)) 0

/-- Embeds C `atoi`: skip leading whitespace, take an optional sign, then the
longest run of decimal digits; no digits yields 0. -/
def atoi (l : List Char) : Int :=
  match l.dropWhile cIsSpace with
  | [] => 0
  | c :: r =>
    if c = '-' then - (digitsToNat (r.takeWhile Char.isDigit) : Int)
    else if c = '+' then (digitsToNat (r.takeWhile Char.isDigit) : Int)
    else (digitsToNat ((c :: r).takeWhile Char.isDigit) : Int)

/-- Decimal digits of `n`, most significant first, produced exactly as C
`printf`'s `%d` does for non-negative values.  The first argument is fuel
(structural recursion); `printNat` supplies `n` itself, which is enough. -/
def natDigits : Nat → Nat → List Char
  | 0, n => [Nat.digitChar (n % 10)]
  | fuel + 1, n => if n < 10 then [Nat.digitChar n] else natDigits fuel (n / 10) ++ [Nat.digitChar (n % 10)]

/-- Canonical decimal rendering of a natural number. -/
def printNat (n : Nat) : List Char := natDigits n n

/-- Embeds `printf("%d", i)`: minus sign followed by the decimal digits. -/
def printInt (i : Int) : List Char :=
  if i < 0 then '-' :: printNat i.natAbs else printNat i.toNat

/-- Embeds `lcfgIntRead`: if the stored name (with separator) is a prefix of
the line, parse the remainder with `atoi` and store it through the clamping
setter; otherwise leave the field alone.  `strncmp(name, txt, strlen(name)) == 0`
holds exactly when `name` is a prefix of the NUL-terminated `txt`. -/
def lcfgIntRead (cfg : lcfg_int) (txt : List Char) : lcfg_int :=
  if cfg.name.isPrefixOf txt then lcfgIntSet cfg (atoi (txt.drop cfg.name.length)) else cfg

/-- Embeds `lcfgStrRead`: on a prefix match, store the remainder of the line
through the truncating setter. -/
def lcfgStrRead (cfg : lcfg_str) (txt : List Char) : lcfg_str :=
  if cfg.name.isPrefixOf txt then lcfgStrSet cfg (txt.drop cfg.name.length) else cfg

/-- Embeds `lcfgIntPrint`: the emitted line `name` + decimal value + newline. -/
def lcfgIntPrint (cfg : lcfg_int) : List Char :=
  cfg.name ++ printInt cfg.cur ++ ['\n']

/-- Embeds `lcfgStrPrint`: the emitted line `name` + raw value + newline. -/
def lcfgStrPrint (cfg : lcfg_str) : List Char :=
  cfg.name ++ cfg.cur ++ ['\n']

/-- The two sparse per-category arrays (`lcfg_ints`, `lcfg_strs`).  A `none`
entry is a hole (NULL `name` in C); the spec's explicit presence flag. -/
structure KState where
  ints : List (Option lcfg_int)
  strs : List (Option lcfg_str)
deriving DecidableEq, Repr

/-- One iteration of `lconfigRead`'s inner loops: every registered field of
both categories is offered the line `txt`. -/
def readChunk (st : KState) (txt : List Char) : KState :=
  { ints := st.ints.map (Option.map (fun f => lcfgIntRead f txt)),
    strs := st.strs.map (Option.map (fun f => lcfgStrRead f txt)) }

/-- `LCONFIG_LMAX`, the `fgets` buffer size (default 512). -/
def LMAX : Nat := 512

/-- One `fgets(txt, fuel+?, cfg)` read: at most `fuel` characters, stopping
after (and including) the first newline.  `fgets` with a buffer of `LMAX`
reads at most `LMAX - 1` characters. -/
def takeLine : Nat → List Char → List Char
  | _, [] => []
  | 0, _ => []
  | fuel + 1, c :: r => if c = '\n' then [c] else c :: takeLine fuel r

/-- Splits the file contents the way the `while (fgets(...))` loop does: a
sequence of chunks, each ending at a newline or at the 511-character buffer
limit.  The first argument is fuel; each chunk is nonempty, so fuel equal to
the length of the input suffices. -/
def chunkifyF : Nat → List Char → List (List Char)
  | 0, _ => []
  | _ + 1, [] => []
  | fuel + 1, c :: r =>
    let ch := takeLine (LMAX - 1) (c :: r)
    ch :: chunkifyF fuel ((c :: r).drop ch.length)

/-- The chunks `fgets` yields on the given file contents. -/
def chunkify (l : List Char) : List (List Char) := chunkifyF l.length l

/-- Embeds `lconfigRead`: `none` models `fopen` failing (the function returns
1 and the store is untouched); on `some contents` every chunk is processed in
order and 0 is returned. -/
def lconfigRead (file : Option (List Char)) (st : KState) : Nat × KState :=
  match file with
  | none => (1, st)
  | some content => (0, (chunkify content).foldl readChunk st)

/-- One entry of `LCONFIG_TEMPLATE` as seen by `lconfigWrite`'s macro
expansion: a literal label line, or a field reference by ID. -/
inductive TEntry where
  | line (s : List Char)
  | intf (id : Nat)
  | strf (id : Nat)
deriving DecidableEq, Repr

/-- The text emitted for one template entry.  In C a field entry dereferences
`lcfg_ints[ID]` which the template construction guarantees to be registered;
an unregistered id (undefined behaviour in C) is modelled as emitting
nothing. -/
def writeEntry (st : KState) : TEntry → List Char
  | .line s => s ++ ['\n']
  | .intf id =>
    match st.ints[id]? with
    | some (some f) => lcfgIntPrint f
    | _ => []
  | .strf id =>
    match st.strs[id]? with
    | some (some f) => lcfgStrPrint f
    | _ => []

/-- The whole file text `lconfigWrite` produces: the template entries in
declared order. -/
def renderFile (tmpl : List TEntry) (st : KState) : List Char :=
  (tmpl.map (writeEntry st)).flatten

/-- Embeds `lconfigWrite`: `ok` models whether `fopen(..., "w")` succeeds.
The result is (return code, file written, store after the call); the C
function never touches the store, which the explicit state component makes
visible. -/
def lconfigWrite (tmpl : List TEntry) (ok : Bool) (st : KState) : Nat × Option (List Char) × KState :=
  if ok then (0, some (renderFile tmpl st), st) else (1, none, st)

/-- Embeds `lconfigGetInt` of the int/string variant: bounds- and
presence-checked lookup, `-1` if invalid. -/
def lconfigGetInt (st : KState) (id : Int) : Int :=
  if id < 0 then -1 else
  match st.ints[id.toNat]? with
  | some (some f) => f.cur
  | _ => -1

/-- Embeds `lconfigSetInt` of the int/string variant: silent no-op on an
unregistered id, clamping set otherwise. -/
def lconfigSetInt (st : KState) (id : Int) (val : Int) : KState :=
  if id < 0 then st else
  match st.ints[id.toNat]? with
  | some (some f) => { st with ints := st.ints.set id.toNat (some (lcfgIntSet f val)) }
  | _ => st

/-- Embeds `lconfigGetString` of the int/string variant: `none` models the
NULL result for an invalid id. -/
def lconfigGetString (st : KState) (id : Int) : Option (List Char) :=
  if id < 0 then none else
  match st.strs[id.toNat]? with
  | some (some f) => some f.cur
  | _ => none

/-- Embeds `lconfigSetString` of the int/string variant. -/
def lconfigSetString (st : KState) (id : Int) (val : List Char) : KState :=
  if id < 0 then st else
  match st.strs[id.toNat]? with
  | some (some f) => { st with strs := st.strs.set id.toNat (some (lcfgStrSet f val)) }
  | _ => st

/-- Embeds `lconfigDefault` of the int/string variant: every registered field
is reset through the same clamping setters the accessors use. -/
def lconfigDefault (st : KState) : KState :=
  { ints := st.ints.map (Option.map (fun f => lcfgIntSet f f.dflt)),
    strs := st.strs.map (Option.map (fun f => lcfgStrSet f f.dflt)) }

end K

namespace L

/-- A C `double` value as the clamping code observes it: an exact rational
(covering every finite double), one of the two infinities, or NaN.  Negative
zero is identified with zero, which is invisible to the `<` comparisons the
source performs. -/
inductive DVal where
  | fin (q : ℚ)
  | pinf
  | ninf
  | nan
deriving DecidableEq, Repr

/-- IEEE-754 `<` on doubles as used by `lcfgDblSet`: every comparison
involving NaN is false; the infinities compare in the usual order. -/
def dlt : DVal → DVal → Bool
  | .fin a, .fin b => a < b
  | .fin _, .pinf => true
  | .ninf, .fin _ => true
  | .ninf, .pinf => true
  | _, _ => false

/-- IEEE-754 `<=` on doubles: false whenever NaN is involved. -/
def dle (a b : DVal) : Bool :=
  dlt a b || (a == b && a != DVal.nan)

/-- Embeds `struct lcfg_int` of src/lconfig.h (the C field `def` is spelled
`dflt`). -/
structure lcfg_int where
  name : List Char
  min : Int
  max : Int
  dflt : Int
  cur : Int
deriving DecidableEq, Repr

/-- Embeds `struct lcfg_dbl` of src/lconfig.h. -/
structure lcfg_dbl where
  name : List Char
  min : DVal
  max : DVal
  dflt : DVal
  cur : DVal
deriving DecidableEq, Repr

/-- Embeds `struct lcfg_str` of src/lconfig.h. -/
structure lcfg_str where
  name : List Char
  len : Nat
  dflt : List Char
  cur : List Char
deriving DecidableEq, Repr

/-- Embeds `lcfgIntSet` of src/lconfig.h. -/
def lcfgIntSet (cfg : lcfg_int) (val : Int) : lcfg_int :=
  let v1 := if val < cfg.min then cfg.min else val
  let v2 := if v1 > cfg.max then cfg.max else v1
  { cfg with cur := v2 }

/-- Embeds `lcfgDblSet` of src/lconfig.h: the same two sequential `if`s,
performed with the IEEE `<` (`val > max` is `max < val`). -/
def lcfgDblSet (cfg : lcfg_dbl) (val : DVal) : lcfg_dbl :=
  let v1 := if dlt val cfg.min then cfg.min else val
  let v2 := if dlt cfg.max v1 then cfg.max else v1
  { cfg with cur := v2 }

/-- Embeds `lcfgStrSet` of src/lconfig.h (identical to the variant in
namespace `K`). -/
def lcfgStrSet (cfg : lcfg_str) (val : List Char) : lcfg_str :=
  let n := K.strcspnNl val
  let n := if n > cfg.len then cfg.len else n
  { cfg with cur := val.take n }

/-- The three sparse per-category arrays of src/lconfig.h; `none` is a hole
(NULL `name`). -/
structure LState where
  ints : List (Option lcfg_int)
  dbls : List (Option lcfg_dbl)
  strs : List (Option lcfg_str)
deriving DecidableEq, Repr

/-- The registered int field at `id`, if any: the source's
`id >= 0 && id < size && lcfg_ints[id].name` presence test. -/
def intField? (st : LState) (id : Int) : Option lcfg_int :=
  if id < 0 then none else (st.ints[id.toNat]?).join

/-- The registered double field at `id`, if any. -/
def dblField? (st : LState) (id : Int) : Option lcfg_dbl :=
  if id < 0 then none else (st.dbls[id.toNat]?).join

/-- The registered string field at `id`, if any. -/
def strField? (st : LState) (id : Int) : Option lcfg_str :=
  if id < 0 then none else (st.strs[id.toNat]?).join

/-- Embeds `lconfigGetInt`: the current value, or `-1` for an invalid id. -/
def lconfigGetInt (st : LState) (id : Int) : Int :=
  match intField? st id with
  | some f => f.cur
  | none => -1

/-- Embeds `lconfigSetInt`: clamping set, silent no-op on invalid id. -/
def lconfigSetInt (st : LState) (id : Int) (val : Int) : LState :=
  match intField? st id with
  | some f => { st with ints := st.ints.set id.toNat (some (lcfgIntSet f val)) }
  | none => st

/-- Embeds `lconfigGetDouble`: the current value, or NaN for an invalid id. -/
def lconfigGetDouble (st : LState) (id : Int) : DVal :=
  match dblField? st id with
  | some f => f.cur
  | none => DVal.nan

/-- Embeds `lconfigSetDouble`. -/
def lconfigSetDouble (st : LState) (id : Int) (val : DVal) : LState :=
  match dblField? st id with
  | some f => { st with dbls := st.dbls.set id.toNat (some (lcfgDblSet f val)) }
  | none => st

/-- Embeds `lconfigGetString`: `none` models the NULL result. -/
def lconfigGetString (st : LState) (id : Int) : Option (List Char) :=
  match strField? st id with
  | some f => some f.cur
  | none => none

/-- Embeds `lconfigSetString`. -/
def lconfigSetString (st : LState) (id : Int) (val : List Char) : LState :=
  match strField? st id with
  | some f => { st with strs := st.strs.set id.toNat (some (lcfgStrSet f val)) }
  | none => st

/-- Embeds `lconfigDefault` of src/lconfig.h: every registered field of every
category is reset to its default through the clamping setters; no file
access is involved (the function's type shows none). -/
def lconfigDefault (st : LState) : LState :=
  { ints := st.ints.map (Option.map (fun f => lcfgIntSet f f.dflt)),
    dbls := st.dbls.map (Option.map (fun f => lcfgDblSet f f.dflt)),
    strs := st.strs.map (Option.map (fun f => lcfgStrSet f f.dflt)) }

end L

/-! ### Concrete fixtures (used by witnesses and counterexamples)

These mirror the example template in the library's header comment:
`number_a` in `[-10, 10]` default 0, `double_b` in `[-32.0, 0.0]` default
-4.0, `string_a` of maximum length 32 default "ABCD". -/

def exIntField : L.lcfg_int := ⟨"number_a ".data, -10, 10, 0, 0⟩

def exDblField : L.lcfg_dbl :=
  ⟨"double_b ".data, L.DVal.fin (-32), L.DVal.fin 0, L.DVal.fin (-4), L.DVal.fin (-4)⟩

def exStrField : L.lcfg_str := ⟨"string_a ".data, 32, "ABCD".data, "ABCD".data⟩

def exLState : L.LState := ⟨[some exIntField], [some exDblField], [some exStrField]⟩

/-- A state whose int field declares a default (999) outside its own bounds
`[-10, 10]`; expressible in C as `LCONFIG_INT(0, "number_a", -10, 10, 999)`. -/
def badDefaultLState : L.LState := ⟨[some ⟨"number_a ".data, -10, 10, 999, 0⟩], [], []⟩

/-- An int/string-variant state with two int fields whose stored names
(`"foo "` and `"foo bar "`) stand in prefix relation; expressible in C as
`LCONFIG_INT(0, "foo", 0, 100, 0) LCONFIG_INT(1, "foo bar", 0, 100, 0)`. -/
def collideKState : K.KState :=
  ⟨[some ⟨"foo ".data, 0, 100, 0, 5⟩, some ⟨"foo bar ".data, 0, 100, 0, 7⟩], []⟩

def collideTmpl : List K.TEntry := [.intf 0, .intf 1]

/-- The int/string-variant form of the example template state. -/
def exKState : K.KState :=
  ⟨[some ⟨"number_a ".data, -10, 10, 0, 3⟩, some ⟨"number_b ".data, 10, 20, 15, 15⟩],
   [some ⟨"string_a ".data, 32, "ABCD".data, "hi".data⟩]⟩

def exKTmpl : List K.TEntry :=
  [.line "#example".data, .intf 0, .line [], .line "#foobar".data, .strf 0, .intf 1]

/-! ### Derived predicates over the int/string-variant state

These are decidable statements of the side conditions under which the
file-layer claims hold; each is a plain boolean computation over the state or
the template. -/

/-- The string-field invariant the C10 claim describes: the stored value has
no newline and fits the declared maximum length. -/
def strOkB (o : Option K.lcfg_str) : Bool :=
  match o with
  | some f => decide (f.cur.length ≤ f.len ∧ '\n' ∉ f.cur)
  | none => true

/-- All registered string fields satisfy the C10 invariant. -/
def strInvB (st : K.KState) : Bool := st.strs.all strOkB

/-- Two stored names are compatible when neither is a prefix of the other
(in particular they differ). -/
def nOKb (a b : List Char) : Bool := !(a.isPrefixOf b) && !(b.isPrefixOf a)

/-- Name compatibility lifted to int-array entries (holes are compatible with
everything). -/
def iOKb (o1 o2 : Option K.lcfg_int) : Bool :=
  match o1, o2 with
  | some f, some g => nOKb f.name g.name
  | _, _ => true

/-- Name compatibility lifted to string-array entries. -/
def sOKb (o1 o2 : Option K.lcfg_str) : Bool :=
  match o1, o2 with
  | some f, some g => nOKb f.name g.name
  | _, _ => true

/-- Name compatibility across the two categories. -/
def xOKb (o1 : Option K.lcfg_int) (o2 : Option K.lcfg_str) : Bool :=
  match o1, o2 with
  | some f, some g => nOKb f.name g.name
  | _, _ => true

/-- Pairwise check of a boolean relation over a list. -/
def pairwiseB {α : Type} (f : α → α → Bool) : List α → Bool
  | [] => true
  | a :: r => r.all (f a) && pairwiseB f r

/-- No registered field's stored name (name plus separator) is a prefix of
another registered field's stored name, across both categories. -/
def NamesOk (st : K.KState) : Prop :=
  (pairwiseB iOKb st.ints && pairwiseB sOKb st.strs
    && st.ints.all (fun oi => st.strs.all (fun os => xOKb oi os))) = true

/-- The stored names of all registered fields, both categories. -/
def regNames (st : K.KState) : List (List Char) :=
  st.ints.filterMap (fun o => o.map (fun f => f.name))
    ++ st.strs.filterMap (fun o => o.map (fun f => f.name))

/-- A line body fits the reader: with its newline it is at most the 511
characters one `fgets` call consumes, and it has no interior newline. -/
def lineFits (body : List Char) : Bool :=
  decide (body.length + 1 ≤ K.LMAX - 1 ∧ '\n' ∉ body)

/-- Side conditions on one template entry for the write/read round trip: the
entry's emitted line fits the reader, field entries are registered, and no
registered name matches a label line. -/
def goodEntry (st : K.KState) : K.TEntry → Bool
  | .line s => lineFits s && (regNames st).all (fun n => !(n.isPrefixOf (s ++ ['\n'])))
  | .intf id =>
    match st.ints[id]? with
    | some (some f) => lineFits (f.name ++ K.printInt f.cur)
    | _ => false
  | .strf id =>
    match st.strs[id]? with
    | some (some f) => lineFits (f.name ++ f.cur)
    | _ => false

/-- An int-array entry is clamped: its current value lies in its bounds. -/
def intOkB (o : Option K.lcfg_int) : Bool :=
  match o with
  | some f => decide (f.min ≤ f.cur ∧ f.cur ≤ f.max)
  | none => true

/-- Every stored value respects its field's declared constraint — the state
the accessors maintain (the claim's "stored values are already clamped"). -/
def stInv (st : K.KState) : Bool := st.ints.all intOkB && st.strs.all strOkB

/-! ### General helper lemmas -/

theorem mem_of_get_some {α : Type} {l : List α} {n : Nat} {a : α} (h : l[n]? = some a) :
    a ∈ l := by
  obtain ⟨hlt, he⟩ := List.getElem?_eq_some_iff.mp h
  exact he ▸ List.getElem_mem hlt

theorem takeWhile_append_of_all {p : Char → Bool} {l : List Char} (x : Char) (r : List Char)
    (hl : ∀ c ∈ l, p c = true) (hx : p x = false) :
    (l ++ x :: r).takeWhile p = l := by
  induction l with
  | nil => simp [List.takeWhile, hx]
  | cons a t ih =>
    have ha : p a = true := hl a (List.mem_cons_self a t)
    simp only [List.cons_append, List.takeWhile_cons, ha]
    simp [ih (fun c hc => hl c (List.mem_cons_of_mem a hc))]

theorem takeWhile_eq_self_of_all {p : Char → Bool} {l : List Char}
    (hl : ∀ c ∈ l, p c = true) : l.takeWhile p = l := by
  induction l with
  | nil => rfl
  | cons a t ih =>
    have ha : p a = true := hl a (List.mem_cons_self a t)
    simp only [List.takeWhile_cons, ha, if_pos]
    simp [ih (fun c hc => hl c (List.mem_cons_of_mem a hc))]

theorem takeWhile_eq_take_len (p : Char → Bool) (l : List Char) :
    l.takeWhile p = l.take (l.takeWhile p).length := by
  induction l with
  | nil => rfl
  | cons a t ih =>
    by_cases ha : p a = true
    · rw [List.takeWhile_cons, if_pos ha, List.length_cons, List.take_succ_cons]
      exact congrArg (List.cons a) ih
    · rw [List.takeWhile_cons, if_neg ha]
      simp

theorem dropWhile_cons_of_neg {p : Char → Bool} {c : Char} (r : List Char)
    (hc : p c = false) : (c :: r).dropWhile p = c :: r := by
  simp [List.dropWhile_cons, hc]

theorem map_opt_eq_self {α : Type} {l : List (Option α)} {r : α → α}
    (h : ∀ o ∈ l, ∀ f, o = some f → r f = f) : l.map (Option.map r) = l := by
  induction l with
  | nil => rfl
  | cons o t ih =>
    have ho : Option.map r o = o := by
      cases o with
      | none => rfl
      | some f => simp [h (some f) (List.mem_cons_self _ _) f rfl]
    simp only [List.map_cons, ho, List.cons.injEq, true_and]
    exact ih (fun o' ho' f hf => h o' (List.mem_cons_of_mem _ ho') f hf)

/-! ### Decimal digits: `printf("%d", ...)` round-trips through `atoi` -/

theorem digitChar_lt10 (d : Nat) (h : d < 10) :
    (Nat.digitChar d).isDigit = true ∧ (Nat.digitChar d).toNat = 48 + d := by
  revert d h
  decide

theorem digit_not_special (c : Char) (h : c.isDigit = true) :
    K.cIsSpace c = false ∧ c ≠ '-' ∧ c ≠ '+' ∧ c ≠ '\n' := by
  refine ⟨?_, ?_, ?_, ?_⟩
  · by_contra hs
    have hs' : K.cIsSpace c = true := by
      cases hx : K.cIsSpace c
      · exact absurd hx hs
      · rfl
    simp only [K.cIsSpace, Bool.or_eq_true, beq_iff_eq] at hs'
    rcases hs' with ((((rfl | rfl) | rfl) | rfl) | rfl) | rfl <;> exact absurd h (by decide)
  · rintro rfl; exact absurd h (by decide)
  · rintro rfl; exact absurd h (by decide)
  · rintro rfl; exact absurd h (by decide)

theorem natDigits_digits (fuel n : Nat) : ∀ c ∈ K.natDigits fuel n, c.isDigit = true := by
  induction fuel generalizing n with
  | zero =>
    intro c hc
    simp only [K.natDigits, List.mem_singleton] at hc
    subst hc
    exact (digitChar_lt10 _ (Nat.mod_lt _ (by norm_num))).1
  | succ fuel ih =>
    intro c hc
    simp only [K.natDigits] at hc
    by_cases hn : n < 10
    · simp [hn] at hc
      subst hc
      exact (digitChar_lt10 _ hn).1
    · simp only [hn, if_false, List.mem_append, List.mem_singleton] at hc
      rcases hc with hc | hc
      · exact ih (n / 10) c hc
      · subst hc
        exact (digitChar_lt10 _ (Nat.mod_lt _ (by norm_num))).1

theorem natDigits_ne_nil (fuel n : Nat) : K.natDigits fuel n ≠ [] := by
  cases fuel with
  | zero => simp [K.natDigits]
  | succ fuel =>
    simp only [K.natDigits]
    by_cases hn : n < 10 <;> simp [hn]

theorem digitsToNat_append_digit (l : List Char) (c : Char) :
    K.digitsToNat (l ++ [c]) = 10 * K.digitsToNat l + (c.toNat - 48) := by
  simp [K.digitsToNat, List.foldl_append]

theorem digitsToNat_natDigits (fuel n : Nat) (h : n ≤ fuel) :
    K.digitsToNat (K.natDigits fuel n) = n := by
  induction fuel generalizing n with
  | zero =>
    interval_cases n
    decide
  | succ fuel ih =>
    simp only [K.natDigits]
    by_cases hn : n < 10
    · simp only [hn, if_true]
      have := (digitChar_lt10 n hn).2
      simp [K.digitsToNat, this]
    · simp only [hn, if_false]
      rw [digitsToNat_append_digit, ih (n / 10) (by omega),
        (digitChar_lt10 (n % 10) (Nat.mod_lt _ (by norm_num))).2]
      omega

theorem digitsToNat_printNat (n : Nat) : K.digitsToNat (K.printNat n) = n :=
  digitsToNat_natDigits n n le_rfl

theorem printNat_digits (n : Nat) : ∀ c ∈ K.printNat n, c.isDigit = true :=
  natDigits_digits n n

theorem printNat_ne_nil (n : Nat) : K.printNat n ≠ [] := natDigits_ne_nil n n

theorem atoi_printInt (v : Int) : K.atoi (K.printInt v ++ ['\n']) = v := by
  by_cases hv : v < 0
  · simp only [K.printInt, hv, if_true, K.atoi]
    rw [List.cons_append,
      dropWhile_cons_of_neg _ (by decide : K.cIsSpace '-' = false)]
    simp only [if_pos rfl]
    rw [takeWhile_append_of_all '\n' [] (printNat_digits _) (by decide)]
    rw [digitsToNat_printNat]
    have habs : ((v.natAbs : Nat) : Int) = -v := by
      simpa using Int.ofNat_natAbs_of_nonpos (le_of_lt hv)
    rw [habs]
    simp
  · obtain ⟨c, t, hct⟩ : ∃ c t, K.printNat v.toNat = c :: t := by
      cases hp : K.printNat v.toNat with
      | nil => exact absurd hp (printNat_ne_nil _)
      | cons c t => exact ⟨c, t, rfl⟩
    have hcd : c.isDigit = true := printNat_digits v.toNat c (by rw [hct]; exact List.mem_cons_self _ _)
    obtain ⟨hcs, hcm, hcp, _⟩ := digit_not_special c hcd
    simp only [K.printInt, hv, if_false, K.atoi]
    rw [hct, List.cons_append, dropWhile_cons_of_neg _ hcs]
    simp only [if_neg hcm, if_neg hcp]
    have htk : ((c :: t) ++ ['\n']).takeWhile Char.isDigit = c :: t :=
      takeWhile_append_of_all (p := Char.isDigit) '\n' []
        (l := c :: t) (by rw [← hct]; exact printNat_digits _) (by decide)
    rw [show c :: (t ++ ['\n']) = (c :: t) ++ ['\n'] from rfl, htk]
    rw [← hct, digitsToNat_printNat]
    omega

/-! ### Lookup/update lemmas for the `L` state -/

theorem L.intField?_set {st : L.LState} {id : Int} {f : L.lcfg_int} (g : L.lcfg_int)
    (h : L.intField? st id = some f) :
    L.intField? { st with ints := st.ints.set id.toNat (some g) } id = some g := by
  by_cases h0 : id < 0
  · simp [L.intField?, h0] at h
  · simp only [L.intField?, h0, if_false] at h ⊢
    have h' : st.ints[id.toNat]? = some (some f) := Option.join_eq_some.mp h
    have hlt : id.toNat < st.ints.length := (List.getElem?_eq_some_iff.mp h').1
    simp [List.getElem?_set_self', List.length_set, hlt]

theorem L.dblField?_set {st : L.LState} {id : Int} {f : L.lcfg_dbl} (g : L.lcfg_dbl)
    (h : L.dblField? st id = some f) :
    L.dblField? { st with dbls := st.dbls.set id.toNat (some g) } id = some g := by
  by_cases h0 : id < 0
  · simp [L.dblField?, h0] at h
  · simp only [L.dblField?, h0, if_false] at h ⊢
    have h' : st.dbls[id.toNat]? = some (some f) := Option.join_eq_some.mp h
    have hlt : id.toNat < st.dbls.length := (List.getElem?_eq_some_iff.mp h').1
    simp [List.getElem?_set_self', List.length_set, hlt]

theorem L.strField?_set {st : L.LState} {id : Int} {f : L.lcfg_str} (g : L.lcfg_str)
    (h : L.strField? st id = some f) :
    L.strField? { st with strs := st.strs.set id.toNat (some g) } id = some g := by
  by_cases h0 : id < 0
  · simp [L.strField?, h0] at h
  · simp only [L.strField?, h0, if_false] at h ⊢
    have h' : st.strs[id.toNat]? = some (some f) := Option.join_eq_some.mp h
    have hlt : id.toNat < st.strs.length := (List.getElem?_eq_some_iff.mp h').1
    simp [List.getElem?_set_self', List.length_set, hlt]

/-- After `lconfigSetInt` on a registered id, the field holds the clamped value. -/
theorem L.intField?_after_set {st : L.LState} {id : Int} {f : L.lcfg_int} (v : Int)
    (h : L.intField? st id = some f) :
    L.intField? (L.lconfigSetInt st id v) id = some (L.lcfgIntSet f v) := by
  unfold L.lconfigSetInt
  rw [h]
  exact L.intField?_set _ h

theorem L.dblField?_after_set {st : L.LState} {id : Int} {f : L.lcfg_dbl} (v : L.DVal)
    (h : L.dblField? st id = some f) :
    L.dblField? (L.lconfigSetDouble st id v) id = some (L.lcfgDblSet f v) := by
  unfold L.lconfigSetDouble
  rw [h]
  exact L.dblField?_set _ h

theorem L.strField?_after_set {st : L.LState} {id : Int} {f : L.lcfg_str} (v : List Char)
    (h : L.strField? st id = some f) :
    L.strField? (L.lconfigSetString st id v) id = some (L.lcfgStrSet f v) := by
  unfold L.lconfigSetString
  rw [h]
  exact L.strField?_set _ h

/-! ### Clamping lemmas -/

/-- The stored int after `lcfgIntSet` lies in `[min, max]` whenever the
bounds form an interval. -/
theorem L.intSet_cur_mem (cfg : L.lcfg_int) (v : Int) (hmm : cfg.min ≤ cfg.max) :
    cfg.min ≤ (L.lcfgIntSet cfg v).cur ∧ (L.lcfgIntSet cfg v).cur ≤ cfg.max := by
  simp only [L.lcfgIntSet]
  split_ifs with h1 h2 h3 <;> constructor <;> omega

theorem L.dle_not_dlt {a b : L.DVal} (h : L.dle a b = true) : L.dlt b a = false := by
  cases a <;> cases b <;> simp_all [L.dle, L.dlt]
  rcases h with h | h
  · linarith
  · simp [h]

/-- The stored double after `lcfgDblSet` lies in `[min, max]` in the IEEE
`<=` sense, whenever `min <= max` holds (which forces both bounds non-NaN)
and the input is not NaN. -/
theorem L.dblSet_cur_mem (cfg : L.lcfg_dbl) (v : L.DVal)
    (hmm : L.dle cfg.min cfg.max = true) (hv : v ≠ L.DVal.nan) :
    L.dle cfg.min (L.lcfgDblSet cfg v).cur = true ∧
    L.dle (L.lcfgDblSet cfg v).cur cfg.max = true := by
  obtain ⟨nm, mn, mx, d, c⟩ := cfg
  simp only [L.lcfgDblSet]
  cases mn <;> cases mx <;> cases v <;>
    split_ifs <;> simp_all [L.dle, L.dlt] <;>
    first
    | linarith
    | exact lt_or_eq_of_le (by assumption)
    | (constructor <;> first | linarith | exact lt_or_eq_of_le (by assumption))

/-- A NaN input passes through `lcfgDblSet` unclamped: both guards compare
false against NaN. -/
theorem L.dblSet_nan (cfg : L.lcfg_dbl) :
    (L.lcfgDblSet cfg L.DVal.nan).cur = L.DVal.nan := by
  obtain ⟨nm, mn, mx, d, c⟩ := cfg
  simp only [L.lcfgDblSet]
  cases mn <;> cases mx <;> simp [L.dlt]

/-- The value `lcfgStrSet` stores is the input truncated at the first newline
and then to the declared maximum length. -/
theorem L.strSet_cur (cfg : L.lcfg_str) (v : List Char) :
    (L.lcfgStrSet cfg v).cur = (v.takeWhile (fun c => c != '\n')).take cfg.len := by
  simp only [L.lcfgStrSet, K.strcspnNl]
  by_cases h : (v.takeWhile (fun c => c != '\n')).length > cfg.len
  · rw [if_pos h]
    conv_rhs => rw [takeWhile_eq_take_len (fun c => c != '\n') v]
    rw [List.take_take, min_eq_left (le_of_lt h)]
  · rw [if_neg h]
    rw [show v.take (v.takeWhile (fun c => c != '\n')).length
          = v.takeWhile (fun c => c != '\n') from (takeWhile_eq_take_len _ v).symm]
    rw [List.take_of_length_le (by omega)]

/-! ### Claim C1 -/

/-- C1 counterexample: the claim asserts that after `Set(id, v)` the value read
back lies in the declared `[min, max]` for every `v`, including NaN for
doubles.  On the example double field `double_b` with bounds `[-32, 0]`,
setting NaN stores NaN, and NaN does not lie in `[-32, 0]` under IEEE
comparison (both bound checks are false). -/
theorem c1_nan_escapes_clamp :
    L.lconfigGetDouble (L.lconfigSetDouble exLState 0 L.DVal.nan) 0 = L.DVal.nan ∧
    L.dle (L.DVal.fin (-32)) L.DVal.nan = false ∧
    L.dle L.DVal.nan (L.DVal.fin 0) = false := by
  refine ⟨?_, rfl, rfl⟩
  rfl

/-- C1 (amended): after `Set(id, v)` on a registered numeric field, `Get(id)`
lies in the declared `[min, max]` — for int fields whenever the declared
bounds satisfy `min ≤ max`, and for double fields whenever `min ≤ max` holds
in the IEEE sense and `v` is not NaN.  A NaN input to a double field is
stored unchanged (the correction: the clamp's two `<` guards are both false
on NaN). -/
theorem c1_set_then_get_clamped :
    (∀ (st : L.LState) (id : Int) (v : Int) (f : L.lcfg_int),
        L.intField? st id = some f → f.min ≤ f.max →
        f.min ≤ L.lconfigGetInt (L.lconfigSetInt st id v) id ∧
        L.lconfigGetInt (L.lconfigSetInt st id v) id ≤ f.max)
    ∧ (∀ (st : L.LState) (id : Int) (v : L.DVal) (f : L.lcfg_dbl),
        L.dblField? st id = some f → L.dle f.min f.max = true → v ≠ L.DVal.nan →
        L.dle f.min (L.lconfigGetDouble (L.lconfigSetDouble st id v) id) = true ∧
        L.dle (L.lconfigGetDouble (L.lconfigSetDouble st id v) id) f.max = true)
    ∧ (∀ (st : L.LState) (id : Int) (f : L.lcfg_dbl),
        L.dblField? st id = some f →
        L.lconfigGetDouble (L.lconfigSetDouble st id L.DVal.nan) id = L.DVal.nan) := by
  refine ⟨?_, ?_, ?_⟩
  · intro st id v f hf hmm
    have h2 := L.intField?_after_set (f := f) v hf
    simp only [L.lconfigGetInt, h2]
    exact L.intSet_cur_mem f v hmm
  · intro st id v f hf hmm hv
    have h2 := L.dblField?_after_set (f := f) v hf
    simp only [L.lconfigGetDouble, h2]
    exact L.dblSet_cur_mem f v hmm hv
  · intro st id f hf
    have h2 := L.dblField?_after_set (f := f) L.DVal.nan hf
    simp only [L.lconfigGetDouble, h2]
    exact L.dblSet_nan f

/-- C1 witness: the amended claim applied to the example fields — an extreme
int set (999 into `[-10, 10]`) and a finite double set (100 into `[-32, 0]`)
land inside bounds, and a NaN double set stores NaN. -/
theorem c1_set_then_get_clamped_witness :
    ((-10 : Int) ≤ L.lconfigGetInt (L.lconfigSetInt exLState 0 999) 0 ∧
      L.lconfigGetInt (L.lconfigSetInt exLState 0 999) 0 ≤ 10) ∧
    (L.dle (L.DVal.fin (-32)) (L.lconfigGetDouble (L.lconfigSetDouble exLState 0 (L.DVal.fin 100)) 0) = true ∧
      L.dle (L.lconfigGetDouble (L.lconfigSetDouble exLState 0 (L.DVal.fin 100)) 0) (L.DVal.fin 0) = true) ∧
    L.lconfigGetDouble (L.lconfigSetDouble exLState 0 L.DVal.nan) 0 = L.DVal.nan :=
  ⟨c1_set_then_get_clamped.1 exLState 0 999 exIntField (by decide) (by decide),
   c1_set_then_get_clamped.2.1 exLState 0 (L.DVal.fin 100) exDblField (by decide) (by decide)
     (by decide),
   c1_set_then_get_clamped.2.2 exLState 0 exDblField (by decide)⟩

/-! ### Claim C2 -/

/-- C2 counterexample: the integer not-found sentinel `-1` is not distinct
from values a registered field can hold.  After `Set(number_a, -1)` (bounds
`[-10, 10]`), `Get` of the registered id 0 and `Get` of the unregistered id 5
both return `-1`. -/
theorem c2_int_sentinel_collides :
    L.lconfigGetInt (L.lconfigSetInt exLState 0 (-1)) 0 = -1 ∧
    L.intField? (L.lconfigSetInt exLState 0 (-1)) 5 = none ∧
    L.lconfigGetInt (L.lconfigSetInt exLState 0 (-1)) 5 = -1 := by
  refine ⟨?_, ?_, ?_⟩ <;> rfl

/-- C2 (amended): `Get` on an id not registered in the relevant category
returns the fixed sentinel of that category (`-1` for int, NaN for double,
NULL for string).  The string sentinel NULL is distinct from every value a
registered string field returns (always a non-NULL buffer), but the int
sentinel `-1` coincides with a legitimate stored value whenever `-1` lies in
a registered field's range, and the double sentinel NaN can coincide with a
stored NaN. -/
theorem c2_not_found_sentinels (st : L.LState) (idI idD idS idS' : Int) (g : L.lcfg_str)
    (hI : L.intField? st idI = none) (hD : L.dblField? st idD = none)
    (hS : L.strField? st idS = none) (hg : L.strField? st idS' = some g) :
    L.lconfigGetInt st idI = -1 ∧ L.lconfigGetDouble st idD = L.DVal.nan ∧
    L.lconfigGetString st idS = none ∧ L.lconfigGetString st idS' = some g.cur := by
  refine ⟨?_, ?_, ?_, ?_⟩
  · simp [L.lconfigGetInt, hI]
  · simp [L.lconfigGetDouble, hD]
  · simp [L.lconfigGetString, hS]
  · simp [L.lconfigGetString, hg]

/-- C2 witness: on the example state, `Get` with out-of-range ids `7`, `-3`,
`2` hits each category's sentinel, while the registered string field 0
returns its (non-NULL) buffer. -/
theorem c2_not_found_sentinels_witness :
    L.lconfigGetInt exLState 7 = -1 ∧ L.lconfigGetDouble exLState (-3) = L.DVal.nan ∧
    L.lconfigGetString exLState 2 = none ∧ L.lconfigGetString exLState 0 = some exStrField.cur :=
  c2_not_found_sentinels exLState 7 (-3) 2 0 exStrField (by decide) (by decide) (by decide)
    (by decide)

/-! ### Claim C5 -/

/-- C5: when the source cannot be opened (`none`), `lconfigRead` returns the
failure code 1 and the state exactly as it was; and this is the sole error
mode — on any openable source (`some content`) it returns 0. -/
theorem c5_read_unopenable_source (st : K.KState) :
    K.lconfigRead none st = (1, st) ∧
    ∀ content : List Char, (K.lconfigRead (some content) st).1 = 0 :=
  ⟨rfl, fun _ => rfl⟩

/-! ### Claim C6 -/

/-- C6: after `SetString(id, s)` on a registered string field, `GetString(id)`
returns the first `max_length` characters of `s` truncated at (excluding) the
first newline of `s`, and its length is at most `max_length`. -/
theorem c6_string_set_truncates (st : L.LState) (id : Int) (s : List Char) (f : L.lcfg_str)
    (hf : L.strField? st id = some f) :
    L.lconfigGetString (L.lconfigSetString st id s) id =
      some ((s.takeWhile (fun c => c != '\n')).take f.len) ∧
    ((s.takeWhile (fun c => c != '\n')).take f.len).length ≤ f.len := by
  have h2 := L.strField?_after_set (f := f) s hf
  constructor
  · simp only [L.lconfigGetString, h2, L.strSet_cur]
  · simp [List.length_take]

/-- C6 witness: setting 40 `x` characters into the example string field of
maximum length 32 stores exactly 32 `x` characters. -/
theorem c6_string_set_truncates_witness :
    L.lconfigGetString (L.lconfigSetString exLState 0 (List.replicate 40 'x')) 0 =
      some (((List.replicate 40 'x').takeWhile (fun c => c != '\n')).take 32) ∧
    (((List.replicate 40 'x').takeWhile (fun c => c != '\n')).take 32).length ≤ 32 :=
  c6_string_set_truncates exLState 0 (List.replicate 40 'x') exStrField (by decide)

/-! ### Claim C7 -/

theorem L.intField?_default (st : L.LState) (id : Int) :
    L.intField? (L.lconfigDefault st) id
      = (L.intField? st id).map (fun f => L.lcfgIntSet f f.dflt) := by
  by_cases h0 : id < 0
  · simp [L.intField?, h0]
  · simp only [L.intField?, L.lconfigDefault, h0, if_false, List.getElem?_map]
    cases st.ints[id.toNat]? with
    | none => rfl
    | some o => cases o <;> rfl

theorem L.dblField?_default (st : L.LState) (id : Int) :
    L.dblField? (L.lconfigDefault st) id
      = (L.dblField? st id).map (fun f => L.lcfgDblSet f f.dflt) := by
  by_cases h0 : id < 0
  · simp [L.dblField?, h0]
  · simp only [L.dblField?, L.lconfigDefault, h0, if_false, List.getElem?_map]
    cases st.dbls[id.toNat]? with
    | none => rfl
    | some o => cases o <;> rfl

theorem L.strField?_default (st : L.LState) (id : Int) :
    L.strField? (L.lconfigDefault st) id
      = (L.strField? st id).map (fun f => L.lcfgStrSet f f.dflt) := by
  by_cases h0 : id < 0
  · simp [L.strField?, h0]
  · simp only [L.strField?, L.lconfigDefault, h0, if_false, List.getElem?_map]
    cases st.strs[id.toNat]? with
    | none => rfl
    | some o => cases o <;> rfl

theorem L.intSet_cur_of_mem (cfg : L.lcfg_int) (v : Int)
    (h1 : cfg.min ≤ v) (h2 : v ≤ cfg.max) : (L.lcfgIntSet cfg v).cur = v := by
  simp only [L.lcfgIntSet]
  split_ifs <;> omega

theorem L.dblSet_cur_of_mem (cfg : L.lcfg_dbl) (v : L.DVal)
    (h1 : L.dlt v cfg.min = false) (h2 : L.dlt cfg.max v = false) :
    (L.lcfgDblSet cfg v).cur = v := by
  simp [L.lcfgDblSet, h1, h2]

theorem L.strSet_cur_of_fit (cfg : L.lcfg_str) (v : List Char)
    (h1 : ∀ c ∈ v, c ≠ '\n') (h2 : v.length ≤ cfg.len) :
    (L.lcfgStrSet cfg v).cur = v := by
  rw [L.strSet_cur]
  rw [takeWhile_eq_self_of_all (fun c hc => by simpa using h1 c hc)]
  exact List.take_of_length_le h2


/-- C7 counterexample: with a declared default outside the declared bounds
(`LCONFIG_INT(0, "number_a", -10, 10, 999)`), `lconfigDefault` stores the
clamped value 10, so `Get` does not return the declared default 999. -/
theorem c7_default_clamped :
    L.lconfigGetInt (L.lconfigDefault badDefaultLState) 0 = 10 ∧ (10 : Int) ≠ 999 := by
  exact ⟨rfl, by decide⟩

/-- C7 (amended): after `lconfigDefault`, every registered field of every
category holds its declared default passed through the category's clamping
(`Get` equals the declared default exactly whenever that default respects the
declared bounds, resp. fits the maximum length without a newline); the
operation involves no file access (its type consumes and produces only the
store). -/
theorem c7_default_resets (st : L.LState) (id : Int) :
    (∀ f : L.lcfg_int, L.intField? st id = some f →
      L.lconfigGetInt (L.lconfigDefault st) id = (L.lcfgIntSet f f.dflt).cur ∧
      (f.min ≤ f.dflt → f.dflt ≤ f.max → L.lconfigGetInt (L.lconfigDefault st) id = f.dflt))
    ∧ (∀ f : L.lcfg_dbl, L.dblField? st id = some f →
      L.lconfigGetDouble (L.lconfigDefault st) id = (L.lcfgDblSet f f.dflt).cur ∧
      (L.dlt f.dflt f.min = false → L.dlt f.max f.dflt = false →
        L.lconfigGetDouble (L.lconfigDefault st) id = f.dflt))
    ∧ (∀ f : L.lcfg_str, L.strField? st id = some f →
      L.lconfigGetString (L.lconfigDefault st) id = some ((L.lcfgStrSet f f.dflt).cur) ∧
      ((∀ c ∈ f.dflt, c ≠ '\n') → f.dflt.length ≤ f.len →
        L.lconfigGetString (L.lconfigDefault st) id = some f.dflt)) := by
  refine ⟨?_, ?_, ?_⟩
  · intro f hf
    have hd := L.intField?_default st id
    rw [hf] at hd
    constructor
    · simp [L.lconfigGetInt, hd]
    · intro hl hr
      simp [L.lconfigGetInt, hd, L.intSet_cur_of_mem f f.dflt hl hr]
  · intro f hf
    have hd := L.dblField?_default st id
    rw [hf] at hd
    constructor
    · simp [L.lconfigGetDouble, hd]
    · intro hl hr
      simp [L.lconfigGetDouble, hd, L.dblSet_cur_of_mem f f.dflt hl hr]
  · intro f hf
    have hd := L.strField?_default st id
    rw [hf] at hd
    constructor
    · simp [L.lconfigGetString, hd]
    · intro hnl hlen
      simp [L.lconfigGetString, hd, L.strSet_cur_of_fit f f.dflt hnl hlen]

/-- C7 witness: on the example state, resetting stores each declared default
unchanged — 0 for `number_a` (within `[-10, 10]`), -4 for `double_b` (within
`[-32, 0]`), and "ABCD" for `string_a` (4 ≤ 32, no newline). -/
theorem c7_default_resets_witness :
    L.lconfigGetInt (L.lconfigDefault exLState) 0 = 0 ∧
    L.lconfigGetDouble (L.lconfigDefault exLState) 0 = L.DVal.fin (-4) ∧
    L.lconfigGetString (L.lconfigDefault exLState) 0 = some "ABCD".data :=
  ⟨((c7_default_resets exLState 0).1 exIntField (by decide)).2 (by decide) (by decide),
   ((c7_default_resets exLState 0).2.1 exDblField (by decide)).2 (by decide) (by decide),
   ((c7_default_resets exLState 0).2.2 exStrField (by decide)).2 (by decide) (by decide)⟩

/-! ### Claim C8 -/

/-- C8: `lconfigWrite` never mutates the field store — the store component of
its result is the input store for every template, both on success (`ok =
true`, return code 0) and on an unwritable destination (`ok = false`, return
code 1, nothing written). -/
theorem c8_write_store_untouched (tmpl : List K.TEntry) (ok : Bool) (st : K.KState) :
    (K.lconfigWrite tmpl ok st).2.2 = st ∧
    (K.lconfigWrite tmpl false st).1 = 1 ∧ (K.lconfigWrite tmpl false st).2.1 = none ∧
    (K.lconfigWrite tmpl true st).1 = 0 := by
  refine ⟨?_, rfl, rfl, rfl⟩
  cases ok <;> rfl

/-! ### Claim C10 -/

/-- Core of C10: whatever `lcfgStrSet` stores has no newline and fits the
declared maximum length. -/
theorem strSet_inv (cfg : K.lcfg_str) (v : List Char) :
    (K.lcfgStrSet cfg v).cur.length ≤ cfg.len ∧ '\n' ∉ (K.lcfgStrSet cfg v).cur := by
  simp only [K.lcfgStrSet, K.strcspnNl]
  constructor
  · split_ifs <;> (simp only [List.length_take]; omega)
  · intro hmem
    have hn : (if (v.takeWhile (fun c => c != '\n')).length > cfg.len then cfg.len
          else (v.takeWhile (fun c => c != '\n')).length)
        ≤ (v.takeWhile (fun c => c != '\n')).length := by
      split_ifs <;> omega
    have hrw : v.take (if (v.takeWhile (fun c => c != '\n')).length > cfg.len then cfg.len
          else (v.takeWhile (fun c => c != '\n')).length)
        = (v.take (v.takeWhile (fun c => c != '\n')).length).take
            (if (v.takeWhile (fun c => c != '\n')).length > cfg.len then cfg.len
              else (v.takeWhile (fun c => c != '\n')).length) := by
      rw [List.take_take, min_eq_left hn]
    rw [hrw, ← takeWhile_eq_take_len (fun c => c != '\n') v] at hmem
    have := List.mem_takeWhile_imp (List.take_subset _ _ hmem)
    simp at this

theorem strOkB_strSet (f : K.lcfg_str) (v : List Char) :
    strOkB (some (K.lcfgStrSet f v)) = true := by
  have h := strSet_inv f v
  have hlen : (K.lcfgStrSet f v).len = f.len := rfl
  simp only [strOkB, hlen, decide_eq_true_eq]
  exact h

theorem strInvB_setString (st : K.KState) (id : Int) (s : List Char)
    (h : strInvB st = true) : strInvB (K.lconfigSetString st id s) = true := by
  unfold K.lconfigSetString
  split_ifs with h0
  · exact h
  · split
    · rename_i f heq
      simp only [strInvB, List.all_eq_true] at h ⊢
      intro o ho
      rcases List.mem_or_eq_of_mem_set ho with ho | rfl
      · exact h o ho
      · exact strOkB_strSet f s
    · exact h

theorem strInvB_readChunk (st : K.KState) (txt : List Char)
    (h : strInvB st = true) : strInvB (K.readChunk st txt) = true := by
  simp only [strInvB, K.readChunk, List.all_eq_true] at h ⊢
  intro o ho
  rw [List.mem_map] at ho
  obtain ⟨o', ho', rfl⟩ := ho
  cases o' with
  | none => rfl
  | some f =>
    show strOkB (some (K.lcfgStrRead f txt)) = true
    unfold K.lcfgStrRead
    split_ifs with hm
    · exact strOkB_strSet f _
    · exact h (some f) ho'

theorem strInvB_foldl (chunks : List (List Char)) :
    ∀ st : K.KState, strInvB st = true → strInvB (chunks.foldl K.readChunk st) = true := by
  induction chunks with
  | nil => exact fun st h => h
  | cons c t ih => exact fun st h => ih _ (strInvB_readChunk st c h)

theorem strInvB_read (st : K.KState) (file : Option (List Char))
    (h : strInvB st = true) : strInvB (K.lconfigRead file st).2 = true := by
  cases file with
  | none => exact h
  | some content => exact strInvB_foldl (K.chunkify content) st h

theorem strInvB_default (st : K.KState) : strInvB (K.lconfigDefault st) = true := by
  simp only [strInvB, K.lconfigDefault, List.all_eq_true]
  intro o ho
  rw [List.mem_map] at ho
  obtain ⟨o', _, rfl⟩ := ho
  cases o' with
  | none => rfl
  | some f => exact strOkB_strSet f f.dflt

/-- C10: every store path for string fields truncates at the first newline
and at the declared maximum length before copying, so (1) `lcfgStrSet` always
stores a newline-free value of length at most `len`; and the whole-store
invariant `strInvB` — every registered string field's current value has no
newline and fits its length bound — is (2) preserved by `SetString`,
(3) preserved by `Read` on any source, and (4) established unconditionally by
`Default`.  This is what makes each field occupy exactly one line in the
written file. -/
theorem c10_stored_strings_inv :
    (∀ (cfg : K.lcfg_str) (v : List Char),
        (K.lcfgStrSet cfg v).cur.length ≤ cfg.len ∧ '\n' ∉ (K.lcfgStrSet cfg v).cur)
    ∧ (∀ (st : K.KState) (id : Int) (s : List Char),
        strInvB st = true → strInvB (K.lconfigSetString st id s) = true)
    ∧ (∀ (st : K.KState) (file : Option (List Char)),
        strInvB st = true → strInvB (K.lconfigRead file st).2 = true)
    ∧ (∀ st : K.KState, strInvB (K.lconfigDefault st) = true) :=
  ⟨strSet_inv, strInvB_setString, strInvB_read, strInvB_default⟩

/-- C10 witness: the invariant concretely — storing a two-line string keeps
only the first line, and `SetString` with 40 characters, a `Read`, and a
`Default` on the example state all leave every string field newline-free and
within bounds. -/
theorem c10_stored_strings_inv_witness :
    ((K.lcfgStrSet ⟨"string_a ".data, 32, "ABCD".data, "ABCD".data⟩ "line1\nline2".data).cur.length ≤ 32 ∧
      '\n' ∉ (K.lcfgStrSet ⟨"string_a ".data, 32, "ABCD".data, "ABCD".data⟩ "line1\nline2".data).cur) ∧
    strInvB (K.lconfigSetString exKState 0 (List.replicate 40 'x')) = true ∧
    strInvB (K.lconfigRead (some "string_a hello\n".data) exKState).2 = true ∧
    strInvB (K.lconfigDefault exKState) = true :=
  ⟨c10_stored_strings_inv.1 ⟨"string_a ".data, 32, "ABCD".data, "ABCD".data⟩ "line1\nline2".data,
   c10_stored_strings_inv.2.1 exKState 0 (List.replicate 40 'x') (by decide),
   c10_stored_strings_inv.2.2.1 exKState (some "string_a hello\n".data) (by decide),
   c10_stored_strings_inv.2.2.2 exKState⟩

/-! ### Claim C9 -/

theorem takeLine_isPre (fuel : Nat) (l : List Char) : K.takeLine fuel l <+: l := by
  induction fuel generalizing l with
  | zero => cases l <;> simp [K.takeLine]
  | succ fuel ih =>
    cases l with
    | nil => simp [K.takeLine]
    | cons c r =>
      simp only [K.takeLine]
      split_ifs with h
      · exact ⟨r, rfl⟩
      · rw [List.cons_prefix_cons]
        exact ⟨rfl, ih r⟩

theorem chunkifyF_mem_isInf (fuel : Nat) (l : List Char) :
    ∀ ch ∈ K.chunkifyF fuel l, ch <:+: l := by
  induction fuel generalizing l with
  | zero => simp [K.chunkifyF]
  | succ fuel ih =>
    cases l with
    | nil => simp [K.chunkifyF]
    | cons c r =>
      intro ch hch
      simp only [K.chunkifyF, List.mem_cons] at hch
      rcases hch with rfl | hch
      · exact (takeLine_isPre (K.LMAX - 1) (c :: r)).isInfix
      · have h1 : ch <:+: (c :: r).drop (K.takeLine (K.LMAX - 1) (c :: r)).length :=
          ih _ ch hch
        exact h1.trans (List.drop_suffix _ _).isInfix

theorem chunk_isInf {content ch : List Char} (h : ch ∈ K.chunkify content) :
    ch <:+: content := chunkifyF_mem_isInf content.length content ch h

theorem lcfgIntRead_of_no_match {f : K.lcfg_int} {txt : List Char}
    (h : ¬ f.name <+: txt) : K.lcfgIntRead f txt = f := by
  unfold K.lcfgIntRead
  rw [if_neg]
  intro hb
  exact h ( List.isPrefixOf_iff_prefix.mp hb)

theorem lcfgStrRead_of_no_match {f : K.lcfg_str} {txt : List Char}
    (h : ¬ f.name <+: txt) : K.lcfgStrRead f txt = f := by
  unfold K.lcfgStrRead
  rw [if_neg]
  intro hb
  exact h ( List.isPrefixOf_iff_prefix.mp hb)

theorem foldl_keeps_int (chunks : List (List Char)) :
    ∀ (st : K.KState) (i : Nat) (f : K.lcfg_int), st.ints[i]? = some (some f) →
      (∀ ch ∈ chunks, ¬ f.name <+: ch) →
      (chunks.foldl K.readChunk st).ints[i]? = some (some f) := by
  induction chunks with
  | nil => exact fun st i f hf _ => hf
  | cons c t ih =>
    intro st i f hf hch
    have hstep : (K.readChunk st c).ints[i]? = some (some f) := by
      simp [K.readChunk, List.getElem?_map, hf,
        lcfgIntRead_of_no_match (hch c (List.mem_cons_self c t))]
    exact ih _ i f hstep (fun ch h => hch ch (List.mem_cons_of_mem c h))

theorem foldl_keeps_str (chunks : List (List Char)) :
    ∀ (st : K.KState) (i : Nat) (f : K.lcfg_str), st.strs[i]? = some (some f) →
      (∀ ch ∈ chunks, ¬ f.name <+: ch) →
      (chunks.foldl K.readChunk st).strs[i]? = some (some f) := by
  induction chunks with
  | nil => exact fun st i f hf _ => hf
  | cons c t ih =>
    intro st i f hf hch
    have hstep : (K.readChunk st c).strs[i]? = some (some f) := by
      simp [K.readChunk, List.getElem?_map, hf,
        lcfgStrRead_of_no_match (hch c (List.mem_cons_self c t))]
    exact ih _ i f hstep (fun ch h => hch ch (List.mem_cons_of_mem c h))

/-- C9: on a readable source, every registered field whose stored name (with
separator) occurs nowhere in the source text keeps its exact entry — `Read`
mutates only fields whose name is found in the input.  (A field is only ever
written when its name is a prefix of one of the `fgets` chunks, and every
chunk is a contiguous part of the source.) -/
theorem c9_read_keeps_absent_fields (st : K.KState) (content : List Char) :
    (∀ (i : Nat) (f : K.lcfg_int), st.ints[i]? = some (some f) →
      ¬ f.name <:+: content →
      ((K.lconfigRead (some content) st).2).ints[i]? = some (some f))
    ∧ (∀ (i : Nat) (f : K.lcfg_str), st.strs[i]? = some (some f) →
      ¬ f.name <:+: content →
      ((K.lconfigRead (some content) st).2).strs[i]? = some (some f)) := by
  constructor
  · intro i f hf hocc
    refine foldl_keeps_int (K.chunkify content) st i f hf ?_
    intro ch hch hpre
    exact hocc (hpre.isInfix.trans (chunk_isInf hch))
  · intro i f hf hocc
    refine foldl_keeps_str (K.chunkify content) st i f hf ?_
    intro ch hch hpre
    exact hocc (hpre.isInfix.trans (chunk_isInf hch))

/-- C9 witness: a source containing a `number_a` line but no `number_b ` and
no `string_a ` leaves the example state's `number_b` and `string_a` entries
exactly as they were. -/
theorem c9_read_keeps_absent_fields_witness :
    ((K.lconfigRead (some "number_a 7\nunrelated 3\n".data) exKState).2).ints[1]?
        = some (some ⟨"number_b ".data, 10, 20, 15, 15⟩) ∧
    ((K.lconfigRead (some "number_a 7\nunrelated 3\n".data) exKState).2).strs[0]?
        = some (some ⟨"string_a ".data, 32, "ABCD".data, "hi".data⟩) :=
  ⟨(c9_read_keeps_absent_fields exKState "number_a 7\nunrelated 3\n".data).1 1
      ⟨"number_b ".data, 10, 20, 15, 15⟩ (by decide) (by decide),
   (c9_read_keeps_absent_fields exKState "number_a 7\nunrelated 3\n".data).2 0
      ⟨"string_a ".data, 32, "ABCD".data, "hi".data⟩ (by decide) (by decide)⟩

/-! ### Claim C3 -/

theorem pairwiseB_get {α : Type} (f : α → α → Bool) (l : List α) (h : pairwiseB f l = true) :
    ∀ (i j : Nat), i < j → ∀ (a b : α), l[i]? = some a → l[j]? = some b → f a b = true := by
  induction l with
  | nil =>
    intro i j _ a b ha
    simp at ha
  | cons x t ih =>
    simp only [pairwiseB, Bool.and_eq_true, List.all_eq_true] at h
    obtain ⟨hx, ht⟩ := h
    intro i j hij a b ha hb
    cases i with
    | zero =>
      cases j with
      | zero => omega
      | succ j' =>
        simp only [List.getElem?_cons_zero, Option.some.injEq] at ha
        simp only [List.getElem?_cons_succ] at hb
        subst ha
        exact hx b (mem_of_get_some hb)
    | succ i' =>
      cases j with
      | zero => omega
      | succ j' =>
        simp only [List.getElem?_cons_succ] at ha hb
        exact ih ht i' j' (by omega) a b ha hb

theorem nOKb_symm (a b : List Char) : nOKb a b = nOKb b a := by
  simp [nOKb, Bool.and_comm]

theorem nOKb_not_pre {a b : List Char} (h : nOKb a b = true) : ¬ a <+: b ∧ ¬ b <+: a := by
  simp only [nOKb, Bool.and_eq_true, Bool.not_eq_true'] at h
  constructor
  · intro hp
    have hb : a.isPrefixOf b = true := List.isPrefixOf_iff_prefix.mpr hp
    rw [h.1] at hb
    exact Bool.false_ne_true hb
  · intro hp
    have hb : b.isPrefixOf a = true := List.isPrefixOf_iff_prefix.mpr hp
    rw [h.2] at hb
    exact Bool.false_ne_true hb

theorem namesOk_int_int {st : K.KState} (H : NamesOk st) {i j : Nat} (hij : i ≠ j)
    {f g : K.lcfg_int} (hf : st.ints[i]? = some (some f)) (hg : st.ints[j]? = some (some g)) :
    nOKb f.name g.name = true := by
  simp only [NamesOk, Bool.and_eq_true] at H
  have h1 : pairwiseB iOKb st.ints = true := H.1.1
  rcases Nat.lt_or_ge i j with hlt | hge
  · have := pairwiseB_get iOKb st.ints h1 i j hlt _ _ hf hg
    simpa [iOKb] using this
  · have hlt' : j < i := by omega
    have := pairwiseB_get iOKb st.ints h1 j i hlt' _ _ hg hf
    rw [nOKb_symm]
    simpa [iOKb] using this

theorem namesOk_str_str {st : K.KState} (H : NamesOk st) {i j : Nat} (hij : i ≠ j)
    {f g : K.lcfg_str} (hf : st.strs[i]? = some (some f)) (hg : st.strs[j]? = some (some g)) :
    nOKb f.name g.name = true := by
  simp only [NamesOk, Bool.and_eq_true] at H
  have h1 : pairwiseB sOKb st.strs = true := H.1.2
  rcases Nat.lt_or_ge i j with hlt | hge
  · have := pairwiseB_get sOKb st.strs h1 i j hlt _ _ hf hg
    simpa [sOKb] using this
  · have hlt' : j < i := by omega
    have := pairwiseB_get sOKb st.strs h1 j i hlt' _ _ hg hf
    rw [nOKb_symm]
    simpa [sOKb] using this

theorem namesOk_int_str {st : K.KState} (H : NamesOk st)
    {f : K.lcfg_int} {g : K.lcfg_str} (hf : (some f) ∈ st.ints) (hg : (some g) ∈ st.strs) :
    nOKb f.name g.name = true := by
  simp only [NamesOk, Bool.and_eq_true] at H
  have h1 := H.2
  rw [List.all_eq_true] at h1
  have h2 := h1 (some f) hf
  rw [List.all_eq_true] at h2
  simpa [xOKb] using h2 (some g) hg

/-- A changed int entry pinpoints a registered field whose name matched the
line. -/
theorem int_changed_matched {st : K.KState} {txt : List Char} {i : Nat}
    (h : (K.readChunk st txt).ints[i]? ≠ st.ints[i]?) :
    ∃ f : K.lcfg_int, st.ints[i]? = some (some f) ∧ f.name <+: txt := by
  cases hx : st.ints[i]? with
  | none =>
    exfalso
    apply h
    simp [K.readChunk, List.getElem?_map, hx]
  | some o =>
    cases o with
    | none =>
      exfalso
      apply h
      simp [K.readChunk, List.getElem?_map, hx]
    | some f =>
      refine ⟨f, rfl, ?_⟩
      by_contra hm
      apply h
      simp [K.readChunk, List.getElem?_map, hx, lcfgIntRead_of_no_match hm]

theorem str_changed_matched {st : K.KState} {txt : List Char} {i : Nat}
    (h : (K.readChunk st txt).strs[i]? ≠ st.strs[i]?) :
    ∃ f : K.lcfg_str, st.strs[i]? = some (some f) ∧ f.name <+: txt := by
  cases hx : st.strs[i]? with
  | none =>
    exfalso
    apply h
    simp [K.readChunk, List.getElem?_map, hx]
  | some o =>
    cases o with
    | none =>
      exfalso
      apply h
      simp [K.readChunk, List.getElem?_map, hx]
    | some f =>
      refine ⟨f, rfl, ?_⟩
      by_contra hm
      apply h
      simp [K.readChunk, List.getElem?_map, hx, lcfgStrRead_of_no_match hm]

/-- Two prefixes of the same line are comparable, so two incomparable names
cannot both match it. -/
theorem not_both_match {a b txt : List Char} (hn : nOKb a b = true)
    (ha : a <+: txt) (hb : b <+: txt) : False := by
  obtain ⟨h1, h2⟩ := nOKb_not_pre hn
  rcases List.prefix_or_prefix_of_prefix ha hb with h | h
  · exact h1 h
  · exact h2 h

/-- C3 counterexample: with stored names `"foo "` and `"foo bar "` (declared
names `foo` and `foo bar`, legal in a template), the single line
`foo bar 42\n` of the source updates both int fields: field 0 (matched via
its prefix `"foo "`, remainder parsed by `atoi` as 0) changes from 5 to 0,
and field 1 changes from 7 to 42. -/
theorem c3_one_line_updates_two_fields :
    (K.lconfigRead (some "foo bar 42\n".data) collideKState).2.ints[0]?
        ≠ collideKState.ints[0]? ∧
    (K.lconfigRead (some "foo bar 42\n".data) collideKState).2.ints[1]?
        ≠ collideKState.ints[1]? := by
  decide

/-- C3 (amended): each line processed by `Read` updates at most one
registered field, provided no registered field's stored name (declared name
plus separator) is a prefix of another's — which the trailing separator
guarantees when no declared name extends another past a space, but which the
code itself does not enforce: if one stored name is a prefix of another, a
single line can update two fields.  Formally: under the pairwise no-prefix
condition, if the int (resp. string) entry at `i` is changed by a line, every
other entry of both categories is unchanged. -/
theorem c3_line_updates_at_most_one (st : K.KState) (txt : List Char) (H : NamesOk st) :
    (∀ i : Nat, (K.readChunk st txt).ints[i]? ≠ st.ints[i]? →
      (∀ j : Nat, j ≠ i → (K.readChunk st txt).ints[j]? = st.ints[j]?) ∧
      (∀ j : Nat, (K.readChunk st txt).strs[j]? = st.strs[j]?))
    ∧ (∀ i : Nat, (K.readChunk st txt).strs[i]? ≠ st.strs[i]? →
      (∀ j : Nat, j ≠ i → (K.readChunk st txt).strs[j]? = st.strs[j]?) ∧
      (∀ j : Nat, (K.readChunk st txt).ints[j]? = st.ints[j]?)) := by
  constructor
  · intro i hci
    obtain ⟨f, hf, hmf⟩ := int_changed_matched hci
    constructor
    · intro j hji
      by_contra hcj
      obtain ⟨g, hg, hmg⟩ := int_changed_matched hcj
      exact not_both_match (namesOk_int_int H (Ne.symm hji) hf hg) hmf hmg
    · intro j
      by_contra hcj
      obtain ⟨g, hg, hmg⟩ := str_changed_matched hcj
      exact not_both_match
        (namesOk_int_str H (mem_of_get_some hf) (mem_of_get_some hg)) hmf hmg
  · intro i hci
    obtain ⟨f, hf, hmf⟩ := str_changed_matched hci
    constructor
    · intro j hji
      by_contra hcj
      obtain ⟨g, hg, hmg⟩ := str_changed_matched hcj
      exact not_both_match (namesOk_str_str H (Ne.symm hji) hf hg) hmf hmg
    · intro j
      by_contra hcj
      obtain ⟨g, hg, hmg⟩ := int_changed_matched hcj
      exact not_both_match
        (namesOk_int_str H (mem_of_get_some hg) (mem_of_get_some hf)) hmg hmf

/-- C3 witness: on the example state (pairwise prefix-free names), the line
`number_a 7\n` changes int field 0, and the amended claim yields that int
field 1 and string field 0 are untouched by that line. -/
theorem c3_line_updates_at_most_one_witness :
    (K.readChunk exKState "number_a 7\n".data).ints[1]? = exKState.ints[1]? ∧
    (K.readChunk exKState "number_a 7\n".data).strs[0]? = exKState.strs[0]? :=
  ⟨((c3_line_updates_at_most_one exKState "number_a 7\n".data (by unfold NamesOk; decide)).1 0
      (by decide)).1 1 (by decide),
   ((c3_line_updates_at_most_one exKState "number_a 7\n".data (by unfold NamesOk; decide)).1 0
      (by decide)).2 0⟩

/-! ### Claim C4 -/

theorem takeLine_of_line {b : List Char} (rest : List Char)
    (hnl : '\n' ∉ b) : ∀ fuel : Nat, b.length < fuel →
    K.takeLine fuel (b ++ '\n' :: rest) = b ++ ['\n'] := by
  induction b with
  | nil =>
    intro fuel hf
    match fuel, hf with
    | fuel + 1, _ => simp [K.takeLine]
  | cons x xs ih =>
    intro fuel hf
    match fuel, hf with
    | fuel + 1, hf =>
      have hx : x ≠ '\n' := fun h => hnl (h ▸ List.mem_cons_self x xs)
      simp only [List.cons_append, K.takeLine, if_neg hx]
      exact congrArg (List.cons x)
        (ih (fun h => hnl (List.mem_cons_of_mem x h)) fuel (by simpa using hf))

theorem chunkifyF_step (fuel : Nat) (l : List Char) (hl : l ≠ []) :
    K.chunkifyF (fuel + 1) l
      = K.takeLine (K.LMAX - 1) l :: K.chunkifyF fuel (l.drop (K.takeLine (K.LMAX - 1) l).length) := by
  cases l with
  | nil => exact absurd rfl hl
  | cons c r => rfl

theorem chunkifyF_flatten (ls : List (List Char)) :
    ∀ fuel : Nat,
      (∀ l ∈ ls, ∃ b, l = b ++ ['\n'] ∧ '\n' ∉ b ∧ b.length + 1 ≤ K.LMAX - 1) →
      ls.flatten.length ≤ fuel → K.chunkifyF fuel ls.flatten = ls := by
  induction ls with
  | nil =>
    intro fuel _ _
    cases fuel <;> rfl
  | cons l t ih =>
    intro fuel hgood hf
    obtain ⟨b, rfl, hnl, hlen⟩ := hgood l (List.mem_cons_self l t)
    have hflat : ((b ++ ['\n']) :: t).flatten = b ++ '\n' :: t.flatten := by
      simp [List.flatten_cons]
    have hlength : ((b ++ ['\n']) :: t).flatten.length = (b.length + 1) + t.flatten.length := by
      simp [hflat]
      omega
    cases fuel with
    | zero =>
      exfalso
      rw [hlength] at hf
      omega
    | succ fuel =>
      rw [hflat, chunkifyF_step fuel _ (by simp)]
      rw [takeLine_of_line t.flatten hnl (K.LMAX - 1) (by omega)]
      have hdrop : (b ++ '\n' :: t.flatten).drop (b ++ ['\n']).length = t.flatten := by
        rw [show b ++ '\n' :: t.flatten = (b ++ ['\n']) ++ t.flatten by simp]
        exact List.drop_left _ _
      rw [hdrop]
      have hrec : t.flatten.length ≤ fuel := by
        rw [hlength] at hf
        omega
      rw [ih fuel (fun l hl => hgood l (List.mem_cons_of_mem _ hl)) hrec]

theorem chunkify_flatten (ls : List (List Char))
    (hgood : ∀ l ∈ ls, ∃ b, l = b ++ ['\n'] ∧ '\n' ∉ b ∧ b.length + 1 ≤ K.LMAX - 1) :
    K.chunkify ls.flatten = ls :=
  chunkifyF_flatten ls ls.flatten.length hgood le_rfl

theorem map_opt_eq_self_idx {α : Type} {l : List (Option α)} {r : α → α}
    (h : ∀ (i : Nat) (f : α), l[i]? = some (some f) → r f = f) :
    l.map (Option.map r) = l := by
  induction l with
  | nil => rfl
  | cons o t ih =>
    have ho : Option.map r o = o := by
      cases o with
      | none => rfl
      | some f => simp [h 0 f (by simp)]
    simp only [List.map_cons, ho, List.cons.injEq, true_and]
    exact ih (fun i f hf => h (i + 1) f (by simpa using hf))

/-- Reading back a field's own printed line restores the field exactly
(bounds already clamped). -/
theorem lcfgIntRead_own (f : K.lcfg_int) (h1 : f.min ≤ f.cur) (h2 : f.cur ≤ f.max) :
    K.lcfgIntRead f (K.lcfgIntPrint f) = f := by
  unfold K.lcfgIntRead K.lcfgIntPrint
  rw [if_pos (by
    rw [List.append_assoc]
    exact List.isPrefixOf_iff_prefix.mpr (List.prefix_append _ _))]
  rw [List.append_assoc, List.drop_left, atoi_printInt]
  have hn1 : ¬ (f.cur < f.min) := by omega
  have hn2 : ¬ (f.cur > f.max) := by omega
  simp [K.lcfgIntSet, hn1, hn2]

theorem lcfgStrRead_own (f : K.lcfg_str) (hlen : f.cur.length ≤ f.len) (hnl : '\n' ∉ f.cur) :
    K.lcfgStrRead f (K.lcfgStrPrint f) = f := by
  unfold K.lcfgStrRead K.lcfgStrPrint
  rw [if_pos (by
    rw [List.append_assoc]
    exact List.isPrefixOf_iff_prefix.mpr (List.prefix_append _ _))]
  rw [List.append_assoc, List.drop_left]
  have htw : (f.cur ++ ['\n']).takeWhile (fun c => c != '\n') = f.cur := by
    have := takeWhile_append_of_all (p := fun c => c != '\n') '\n' [] (l := f.cur)
      (fun c hc => by
        simp only [bne_iff_ne, ne_eq, decide_eq_true_eq]
        exact fun h => hnl (h ▸ hc))
      (by decide)
    simpa using this
  simp only [K.lcfgStrSet, K.strcspnNl, htw]
  rw [if_neg (by omega)]
  rw [List.take_left]

/-- Two incomparable names cannot both begin the same line. -/
theorem no_match_of_nOKb {a b : List Char} (X : List Char) (hn : nOKb a b = true) :
    ¬ b <+: (a ++ X) :=
  fun hpre => not_both_match hn (List.prefix_append a X) hpre

theorem regNames_mem_int {st : K.KState} {f : K.lcfg_int} (h : (some f) ∈ st.ints) :
    f.name ∈ regNames st := by
  unfold regNames
  refine List.mem_append.mpr (Or.inl ?_)
  rw [List.mem_filterMap]
  exact ⟨some f, h, rfl⟩

theorem regNames_mem_str {st : K.KState} {f : K.lcfg_str} (h : (some f) ∈ st.strs) :
    f.name ∈ regNames st := by
  unfold regNames
  refine List.mem_append.mpr (Or.inr ?_)
  rw [List.mem_filterMap]
  exact ⟨some f, h, rfl⟩

theorem not_pre_of_bnot {a t : List Char} (h : (!(a.isPrefixOf t)) = true) : ¬ a <+: t := by
  simp only [Bool.not_eq_true'] at h
  intro hp
  rw [← List.isPrefixOf_iff_prefix] at hp
  rw [h] at hp
  exact Bool.false_ne_true hp

theorem lineFits_elim {b : List Char} (h : lineFits b = true) :
    '\n' ∉ b ∧ b.length + 1 ≤ K.LMAX - 1 := by
  have := of_decide_eq_true h
  exact ⟨this.2, this.1⟩

theorem readChunk_eq_self {st : K.KState} {txt : List Char}
    (hi : st.ints.map (Option.map (fun f => K.lcfgIntRead f txt)) = st.ints)
    (hs : st.strs.map (Option.map (fun f => K.lcfgStrRead f txt)) = st.strs) :
    K.readChunk st txt = st := by
  cases st with
  | mk ints strs =>
    simp only [K.readChunk, K.KState.mk.injEq]
    exact ⟨hi, hs⟩

theorem stInv_int {st : K.KState} (Hinv : stInv st = true) {i : Nat} {f : K.lcfg_int}
    (hf : st.ints[i]? = some (some f)) : f.min ≤ f.cur ∧ f.cur ≤ f.max := by
  have h1 : st.ints.all intOkB = true := by
    simp only [stInv, Bool.and_eq_true] at Hinv
    exact Hinv.1
  rw [List.all_eq_true] at h1
  have h2 := h1 (some f) (mem_of_get_some hf)
  simpa [intOkB] using h2

theorem stInv_str {st : K.KState} (Hinv : stInv st = true) {i : Nat} {f : K.lcfg_str}
    (hf : st.strs[i]? = some (some f)) : f.cur.length ≤ f.len ∧ '\n' ∉ f.cur := by
  have h1 : st.strs.all strOkB = true := by
    simp only [stInv, Bool.and_eq_true] at Hinv
    exact Hinv.2
  rw [List.all_eq_true] at h1
  have h2 := h1 (some f) (mem_of_get_some hf)
  simpa [strOkB] using h2

/-- Under pairwise prefix-free names and clamped stored values, processing any
single emitted line leaves the whole store unchanged. -/
theorem readChunk_entry (st : K.KState) (Hn : NamesOk st) (Hinv : stInv st = true)
    (e : K.TEntry) (he : goodEntry st e = true) :
    K.readChunk st (K.writeEntry st e) = st := by
  cases e with
  | line s =>
    have hgl : lineFits s = true
        ∧ (regNames st).all (fun n => !(n.isPrefixOf (s ++ ['\n']))) = true := by
      simpa [goodEntry, Bool.and_eq_true] using he
    have hall := hgl.2
    rw [List.all_eq_true] at hall
    apply readChunk_eq_self
    · apply map_opt_eq_self_idx
      intro i f hf
      exact lcfgIntRead_of_no_match
        (not_pre_of_bnot (hall _ (regNames_mem_int (mem_of_get_some hf))))
    · apply map_opt_eq_self_idx
      intro i f hf
      exact lcfgStrRead_of_no_match
        (not_pre_of_bnot (hall _ (regNames_mem_str (mem_of_get_some hf))))
  | intf id =>
    cases hx : st.ints[id]? with
    | none => simp [goodEntry, hx] at he
    | some o =>
      cases o with
      | none => simp [goodEntry, hx] at he
      | some f =>
        have hw : K.writeEntry st (.intf id) = K.lcfgIntPrint f := by
          simp [K.writeEntry, hx]
        rw [hw]
        apply readChunk_eq_self
        · apply map_opt_eq_self_idx
          intro i g hg
          by_cases hgf : g = f
          · subst hgf
            obtain ⟨hb1, hb2⟩ := stInv_int Hinv hg
            exact lcfgIntRead_own g hb1 hb2
          · have hii : i ≠ id := by
              intro hid
              rw [hid, hx] at hg
              injection hg with h
              injection h with h2
              exact hgf h2.symm
            have hn := namesOk_int_int Hn (Ne.symm hii) hx hg
            apply lcfgIntRead_of_no_match
            rw [show K.lcfgIntPrint f = f.name ++ (K.printInt f.cur ++ ['\n']) by
              simp [K.lcfgIntPrint]]
            exact no_match_of_nOKb _ hn
        · apply map_opt_eq_self_idx
          intro i g hg
          have hn := namesOk_int_str Hn (mem_of_get_some hx) (mem_of_get_some hg)
          apply lcfgStrRead_of_no_match
          rw [show K.lcfgIntPrint f = f.name ++ (K.printInt f.cur ++ ['\n']) by
            simp [K.lcfgIntPrint]]
          exact no_match_of_nOKb _ hn
  | strf id =>
    cases hx : st.strs[id]? with
    | none => simp [goodEntry, hx] at he
    | some o =>
      cases o with
      | none => simp [goodEntry, hx] at he
      | some f =>
        have hw : K.writeEntry st (.strf id) = K.lcfgStrPrint f := by
          simp [K.writeEntry, hx]
        rw [hw]
        apply readChunk_eq_self
        · apply map_opt_eq_self_idx
          intro i g hg
          have hn := namesOk_int_str Hn (mem_of_get_some hg) (mem_of_get_some hx)
          apply lcfgIntRead_of_no_match
          rw [show K.lcfgStrPrint f = f.name ++ (f.cur ++ ['\n']) by
            simp [K.lcfgStrPrint]]
          exact no_match_of_nOKb _ (by rw [nOKb_symm]; exact hn)
        · apply map_opt_eq_self_idx
          intro i g hg
          by_cases hgf : g = f
          · subst hgf
            obtain ⟨hb1, hb2⟩ := stInv_str Hinv hg
            exact lcfgStrRead_own g hb1 hb2
          · have hii : i ≠ id := by
              intro hid
              rw [hid, hx] at hg
              injection hg with h
              injection h with h2
              exact hgf h2.symm
            have hn := namesOk_str_str Hn (Ne.symm hii) hx hg
            apply lcfgStrRead_of_no_match
            rw [show K.lcfgStrPrint f = f.name ++ (f.cur ++ ['\n']) by
              simp [K.lcfgStrPrint]]
            exact no_match_of_nOKb _ hn

theorem foldl_readChunk_id (lines : List (List Char)) (st : K.KState)
    (h : ∀ l ∈ lines, K.readChunk st l = st) : lines.foldl K.readChunk st = st := by
  induction lines with
  | nil => rfl
  | cons l t ih =>
    rw [List.foldl_cons, h l (List.mem_cons_self l t)]
    exact ih (fun l' hl' => h l' (List.mem_cons_of_mem _ hl'))

/-- C4 counterexample: the round trip fails as soon as one stored name is a
prefix of another.  With int fields named `foo` (current 5) and `foo bar`
(current 7), `Write` emits `foo 5\nfoo bar 7\n`; on `Read`, the second line
also matches the field `foo`, whose value becomes `atoi("bar 7") = 0`, so the
state after `Write` then `Read` differs from the state before. -/
theorem c4_roundtrip_fails_on_colliding_names :
    (K.lconfigRead (K.lconfigWrite collideTmpl true collideKState).2.1 collideKState).2
      ≠ collideKState ∧
    (K.lconfigRead (K.lconfigWrite collideTmpl true collideKState).2.1 collideKState).2.ints[0]?
      = some (some ⟨"foo ".data, 0, 100, 0, 0⟩) ∧
    collideKState.ints[0]? = some (some ⟨"foo ".data, 0, 100, 0, 5⟩) := by
  refine ⟨?_, by decide, by decide⟩
  decide

/-- C4 (amended, int/string categories): for every store whose current values
are already clamped (`stInv`), `Write` followed by `Read` on the same
location restores every field exactly — the final state is the initial one —
provided (a) no registered field's stored name is a prefix of another's
(`NamesOk`), and (b) every template entry emits a line that is registered,
fits within the reader's 512-byte `fgets` buffer, has no interior newline,
and (for label lines) is matched by no field name (`goodEntry`).  Without (a)
a field can be clobbered by another field's line, and a line longer than the
buffer is split by `fgets`, so both provisos are necessary.  Double fields
(`%.17g` formatting of IEEE binary64) are outside this model; the claim is
settled for the integer and string categories of the int/string variant. -/
theorem c4_write_then_read_restores (st : K.KState) (tmpl : List K.TEntry)
    (Hn : NamesOk st) (Hg : tmpl.all (goodEntry st) = true) (Hi : stInv st = true) :
    K.lconfigRead (K.lconfigWrite tmpl true st).2.1 st = (0, st) := by
  rw [List.all_eq_true] at Hg
  have hw : (K.lconfigWrite tmpl true st).2.1 = some (K.renderFile tmpl st) := rfl
  rw [hw]
  show (0, (K.chunkify (K.renderFile tmpl st)).foldl K.readChunk st) = (0, st)
  have hck : K.chunkify (K.renderFile tmpl st) = tmpl.map (K.writeEntry st) := by
    unfold K.renderFile
    apply chunkify_flatten
    intro l hl
    rw [List.mem_map] at hl
    obtain ⟨e, he, rfl⟩ := hl
    have hge : goodEntry st e = true := Hg e he
    cases e with
    | line s =>
      have hgl : lineFits s = true := by
        simp only [goodEntry, Bool.and_eq_true] at hge
        exact hge.1
      obtain ⟨h1, h2⟩ := lineFits_elim hgl
      exact ⟨s, rfl, h1, h2⟩
    | intf id =>
      cases hx : st.ints[id]? with
      | none => simp [goodEntry, hx] at hge
      | some o =>
        cases o with
        | none => simp [goodEntry, hx] at hge
        | some f =>
          have hfits : lineFits (f.name ++ K.printInt f.cur) = true := by
            simpa [goodEntry, hx] using hge
          obtain ⟨h1, h2⟩ := lineFits_elim hfits
          refine ⟨f.name ++ K.printInt f.cur, ?_, h1, h2⟩
          simp [K.writeEntry, hx, K.lcfgIntPrint]
    | strf id =>
      cases hx : st.strs[id]? with
      | none => simp [goodEntry, hx] at hge
      | some o =>
        cases o with
        | none => simp [goodEntry, hx] at hge
        | some f =>
          have hfits : lineFits (f.name ++ f.cur) = true := by
            simpa [goodEntry, hx] using hge
          obtain ⟨h1, h2⟩ := lineFits_elim hfits
          refine ⟨f.name ++ f.cur, ?_, h1, h2⟩
          simp [K.writeEntry, hx, K.lcfgStrPrint]
  rw [hck]
  rw [foldl_readChunk_id (tmpl.map (K.writeEntry st)) st ?_]
  intro l hl
  rw [List.mem_map] at hl
  obtain ⟨e, he, rfl⟩ := hl
  exact readChunk_entry st Hn Hi e (Hg e he)

/-- C4 witness: on the example template (two labels, a blank line, two int
fields and a string field, prefix-free names, clamped values) the write-read
round trip returns code 0 and the exact initial state. -/
theorem c4_write_then_read_restores_witness :
    K.lconfigRead (K.lconfigWrite exKTmpl true exKState).2.1 exKState = (0, exKState) :=
  c4_write_then_read_restores exKState exKTmpl (by unfold NamesOk; decide) (by decide)
    (by decide)
